import Mathlib

/-!
Verification development for the cykuza-web wallet and explorer core.

The definitions below are shallow embeddings of the TypeScript source:
  - src/lib/utils.ts            (codec: difficulty, header parsing, tx walk)
  - src/lib/wallet/transaction.ts (fee estimation, transaction building)
  - src/lib/wallet/password.ts  (password based encryption)
  - src/context/WalletContext.tsx (unlock lockout state machine)
  - the ElectrumClient message demultiplexer

JavaScript numbers are embedded as exact integers or rationals; all the
amounts involved stay far below 2^53, where IEEE double arithmetic on
integers is exact, and the concrete difficulty computation of claim C1 is
carried out on values that are exactly representable in an IEEE double
(a 16 bit mantissa times a power of two), so the rational embedding agrees
with the floating point source on the inputs the claims are about.
-/

/-! ## Transaction engine (src/lib/wallet/transaction.ts) -/

/-- Utxo record as used by the wallet: txid, vout and value in satoshis. -/
structure Utxo where
  txid : String
  vout : Nat
  value : Int
deriving DecidableEq

/-- Embeds estimateVBytes: rough P2WPKH estimate, 68 vbytes per input,
31 per output, 10 overhead.  The source applies Math.ceil to an integer
expression, which is the identity. -/
def estimateVBytes (inputCount outputCount : Nat) : Nat :=
  10 + inputCount * 68 + outputCount * 31

/-- Embeds the expression Math.ceil(estimatedVSize * feeRate) used by both
estimateFee and buildAndSignTx. -/
def feeForSize (vsize : Nat) (feeRate : ℚ) : Int :=
  ⌈(vsize : ℚ) * feeRate⌉

/-- Embeds the UTXO accumulation loop inside estimateFee.  The arguments
after the utxo list mirror the mutable loop variables inputCount, totalIn
and estimatedFee; the loop body recomputes the fee after each addition and
breaks once the accumulated input value meets the target. -/
def estimateFeeLoop (amountSats : Int) (feeRate : ℚ) (includeFee : Bool) :
    List Utxo → Nat → Int → Int → Int
  | [], _, _, estimatedFee => estimatedFee
  | u :: rest, inputCount, totalIn, _ =>
    let inputCount' := inputCount + 1
    let totalIn' := totalIn + u.value
    let outputCount : Nat := if includeFee then 1 else 2
    let estimatedFee := feeForSize (estimateVBytes inputCount' outputCount) feeRate
    let totalNeeded := if includeFee then amountSats else amountSats + estimatedFee
    if totalNeeded ≤ totalIn' then estimatedFee
    else estimateFeeLoop amountSats feeRate includeFee rest inputCount' totalIn' estimatedFee

/-- Result record of estimateFee. -/
structure FeeEstimate where
  estimatedFee : Int
  actualAmountSats : Int
  totalNeeded : Int
deriving DecidableEq

/-- Embeds estimateFee from src/lib/wallet/transaction.ts.  An empty utxo
list or a non positive amount short circuits to the all zero record. -/
def estimateFee (amountSats : Int) (feeRate : ℚ) (utxos : List Utxo)
    (includeFee : Bool) : FeeEstimate :=
  if utxos = [] ∨ amountSats ≤ 0 then ⟨0, 0, 0⟩
  else
    let estimatedFee := estimateFeeLoop amountSats feeRate includeFee utxos 0 0 0
    let actualAmountSats := if includeFee then max 0 (amountSats - estimatedFee) else amountSats
    let totalNeeded := if includeFee then amountSats else amountSats + estimatedFee
    ⟨estimatedFee, actualAmountSats, totalNeeded⟩

/-- Embeds the UTXO selection loop of buildAndSignTx: identical greedy
accumulation, except that it also records the selected utxos.  The source
computes targetAmount as amountSats in both branches of its conditional,
so the recalculated requirement matches the one in estimateFee. -/
def selectUtxosLoop (amountSats : Int) (feeRate : ℚ) (includeFee : Bool) :
    List Utxo → List Utxo → Int → List Utxo × Int
  | [], selected, totalIn => (selected, totalIn)
  | u :: rest, selected, totalIn =>
    let selected' := selected ++ [u]
    let totalIn' := totalIn + u.value
    let outputCount : Nat := if includeFee then 1 else 2
    let estimatedFee := feeForSize (estimateVBytes selected'.length outputCount) feeRate
    let recalculatedNeeded := if includeFee then amountSats else amountSats + estimatedFee
    if recalculatedNeeded ≤ totalIn' then (selected', totalIn')
    else selectUtxosLoop amountSats feeRate includeFee rest selected' totalIn'

/-- Typed rendering of the four error strings thrown by buildAndSignTx. -/
inductive TxError where
  | invalidAmount
  | noFunds
  | amountBelowFee
  | insufficientBalance
deriving DecidableEq

/-- Parameters of buildAndSignTx.  The signing key pair and the network
descriptor of the source do not influence the monetary arithmetic the
claims are about, and signing is modelled as succeeding, so they are not
carried here. -/
structure SpendTarget where
  toAddress : String
  amountSats : Int
  feeRate : ℚ
  fromAddress : String
  utxos : List Utxo
  includeFee : Bool
deriving DecidableEq

/-- The utxo selection performed by buildAndSignTx, with its running total. -/
def buildSelected (p : SpendTarget) : List Utxo × Int :=
  selectUtxosLoop p.amountSats p.feeRate p.includeFee p.utxos [] 0

/-- Final fee estimate of buildAndSignTx, recomputed from the number of
selected inputs exactly as in the source after the selection loop. -/
def buildEstimatedFee (p : SpendTarget) : Int :=
  feeForSize (estimateVBytes (buildSelected p).1.length (if p.includeFee then 1 else 2)) p.feeRate

/-- The actualAmountSats local of buildAndSignTx. -/
def buildActualAmount (p : SpendTarget) : Int :=
  if p.includeFee then max 0 (p.amountSats - buildEstimatedFee p) else p.amountSats

/-- The change local of buildAndSignTx. -/
def buildChange (p : SpendTarget) : Int :=
  (buildSelected p).2 - buildActualAmount p - buildEstimatedFee p

/-- Outcome of a successful buildAndSignTx: the selected inputs, the sum of
their values, the final fee estimate, the two possible outputs of the
finalized transaction, and the realized fee computed in the source as the
total input value minus the sum of the output values. -/
structure BuiltTx where
  selected : List Utxo
  totalIn : Int
  estimatedFee : Int
  recipientValue : Int
  changeOutput : Option Int
  fee : Int
deriving DecidableEq

/-- Embeds buildAndSignTx from src/lib/wallet/transaction.ts.  The guard
order mirrors the source: positive amount, non empty utxos, fee inclusive
amount still positive, change non negative; a change output is added only
when the change strictly exceeds 546 satoshis. -/
def buildAndSignTx (p : SpendTarget) : Except TxError BuiltTx :=
  if p.amountSats ≤ 0 then .error .invalidAmount
  else if p.utxos = [] then .error .noFunds
  else if buildActualAmount p ≤ 0 ∧ p.includeFee then .error .amountBelowFee
  else if buildChange p < 0 then .error .insufficientBalance
  else
    let changeOutput := if 546 < buildChange p then some (buildChange p) else none
    let fee := (buildSelected p).2 - (buildActualAmount p + changeOutput.getD 0)
    .ok ⟨(buildSelected p).1, (buildSelected p).2, buildEstimatedFee p,
      buildActualAmount p, changeOutput, fee⟩

/-! ## Difficulty decoding (src/lib/utils.ts, calculateDifficultyFromBits) -/

/-- Embeds calculateDifficultyFromBits.  The source computes with IEEE
doubles; on the inputs considered here every intermediate value is exactly
representable (a mantissa of at most 32 bits times a power of two), so the
rational arithmetic below coincides with the floating point result. -/
def calculateDifficultyFromBits (bits : Nat) : ℚ :=
  let exponent := bits >>> 24
  let mantissa := bits &&& 0x007fffff
  let maxTarget : ℚ := 0xffff0000 * 256 ^ (0x1d - 3)
  let target : ℚ :=
    if exponent ≤ 3 then ((mantissa >>> (8 * (3 - exponent)) : Nat) : ℚ)
    else (mantissa : ℚ) * 256 ^ (exponent - 3)
  if target = 0 then 0 else maxTarget / target

/-! ## Unlock lockout state machine (src/context/WalletContext.tsx) -/

/-- Maximum number of failed unlock attempts before lockout. -/
def MAX_UNLOCK_ATTEMPTS : Nat := 5

/-- Lockout duration in milliseconds (15 minutes). -/
def LOCKOUT_DURATION : Nat := 15 * 60 * 1000

/-- The lockout related session state: the unlockAttempts counter and the
lockoutUntil timestamp (milliseconds), none when no lockout is recorded. -/
structure LockState where
  unlockAttempts : Nat
  lockoutUntil : Option Nat
deriving DecidableEq

/-- Outcome of an unlockWallet call, mirroring the thrown errors and the
success path of the source. -/
inductive UnlockOutcome where
  | rejectedLockedOut
  | invalidPassword (remaining : Nat)
  | lockedOutNow
  | success
deriving DecidableEq

/-- Result of an unlockWallet call: the new session state, the outcome,
and whether password verification was invoked during the call. -/
structure UnlockResult where
  state : LockState
  outcome : UnlockOutcome
  verificationInvoked : Bool
deriving DecidableEq

/-- The verification half of unlockWallet, reached only when no active
lockout blocks the call: a valid password resets the counter and clears
the lockout; an invalid one increments the counter and, on reaching
MAX_UNLOCK_ATTEMPTS, installs a lockout that expires LOCKOUT_DURATION
milliseconds from now. -/
def unlockVerify (s : LockState) (now : Nat) (passwordValid : Bool) : UnlockResult :=
  if passwordValid then ⟨⟨0, none⟩, .success, true⟩
  else
    let newAttempts := s.unlockAttempts + 1
    if MAX_UNLOCK_ATTEMPTS ≤ newAttempts then
      ⟨⟨newAttempts, some (now + LOCKOUT_DURATION)⟩, .lockedOutNow, true⟩
    else ⟨⟨newAttempts, s.lockoutUntil⟩, .invalidPassword (MAX_UNLOCK_ATTEMPTS - newAttempts), true⟩

/-- Embeds unlockWallet from src/context/WalletContext.tsx, restricted to
the lockout logic: a call made while lockoutUntil is set and not yet
reached is rejected before any verification (the source checks the
truthiness of lockoutUntil; timestamps are always positive).  Note that an
expired lockout is not cleared here: verification proceeds with the old
attempt counter. -/
def unlockWallet (s : LockState) (now : Nat) (passwordValid : Bool) : UnlockResult :=
  match s.lockoutUntil with
  | some t =>
    if now < t then ⟨s, .rejectedLockedOut, false⟩
    else unlockVerify s now passwordValid
  | none => unlockVerify s now passwordValid

/-- Embeds the mount time restore effect of WalletProvider: stored attempt
and lockout values are reinstated, except that an expired lockout clears
both the lockout and the attempt counter. -/
def restoreLockState (storedAttempts storedLockout : Option Nat) (now : Nat) : LockState :=
  let attempts := storedAttempts.getD 0
  match storedLockout with
  | none => ⟨attempts, none⟩
  | some t => if now < t then ⟨attempts, some t⟩ else ⟨0, none⟩

/-- Applies n consecutive failed unlock calls at the same instant. -/
def iterateFailedUnlocks (s : LockState) (now : Nat) : Nat → LockState
  | 0 => s
  | n + 1 => iterateFailedUnlocks (unlockWallet s now false).state now n

/-! ## Electrum RPC message demultiplexer (ElectrumClient.onMessage) -/

/-- Shape of an inbound JSON message as inspected by onMessage: an optional
id, the truthiness of the error field, the result value, and optional
method and params fields.  Results and params are abstracted to naturals
and lists of naturals; their values are only carried around. -/
structure RpcMessage where
  msgId : Option Nat
  hasError : Bool
  result : Nat
  method : Option String
  params : Option (List Nat)
deriving DecidableEq

/-- Observable effect of one onMessage call: resolving or rejecting the
pending request with a given id (the reject reason of the source is an
Error object and is not carried here), invoking the subscription handler
registered for a method, or doing nothing. -/
inductive RpcEvent where
  | resolvedPending (id result : Nat)
  | rejectedPending (id : Nat)
  | notified (method : String) (handler : Nat) (params : List Nat)
  | ignored
deriving DecidableEq

/-- State of the ElectrumClient relevant to message routing: the id
counter, the set of pending request ids (the keys of the pending map; the
resolver of a request is identified by its id), and the subscriptions map
from method name to handler (handlers abstracted to naturals). -/
structure RpcState where
  nextId : Nat
  pending : List Nat
  subscriptions : List (String × Nat)
deriving DecidableEq

/-- Lookup in the subscriptions map.  A JavaScript Map holds at most one
value per key, which is why this returns an Option. -/
def subsGet (subs : List (String × Nat)) (m : String) : Option Nat :=
  (subs.find? (fun e => e.1 == m)).map (fun e => e.2)

/-- The notification half of onMessage: a message whose method and params
fields are truthy (a non empty method string and a present params array)
is dispatched to the handler registered for that method, if any. -/
def notifyDispatch (s : RpcState) (msg : RpcMessage) : RpcState × RpcEvent :=
  match msg.method, msg.params with
  | some m, some ps =>
    if m = "" then (s, .ignored)
    else
      match subsGet s.subscriptions m with
      | some h => (s, .notified m h ps)
      | none => (s, .ignored)
  | _, _ => (s, .ignored)

/-- Embeds ElectrumClient.onMessage: a message whose id is present and
matches a pending request resolves or rejects exactly that request and
removes it from the pending map; every other message falls through to the
notification dispatch. -/
def onMessage (s : RpcState) (msg : RpcMessage) : RpcState × RpcEvent :=
  match msg.msgId with
  | some i =>
    if i ∈ s.pending then
      ({ s with pending := s.pending.erase i },
        if msg.hasError then .rejectedPending i else .resolvedPending i msg.result)
    else notifyDispatch s msg
  | none => notifyDispatch s msg

/-- Embeds ElectrumClient.send, reduced to its id allocation and pending
registration: the id counter is pre incremented and the new id recorded as
pending. -/
def send (s : RpcState) : RpcState × Nat :=
  let id := s.nextId + 1
  ({ s with nextId := id, pending := s.pending ++ [id] }, id)

/-- Delivery of a response message with the given id and result and no
error field. -/
def deliverResponse (s : RpcState) (i result : Nat) : RpcState × RpcEvent :=
  onMessage s ⟨some i, false, result, none, none⟩

/-- The client state after issuing three calls from a fresh connection:
ids 1, 2 and 3 are pending. -/
def threeCallsState : RpcState := (send (send (send ⟨0, [], []⟩).1).1).1

/-! ## Hex codec (Node Buffer hex semantics) -/

/-- Value of a single hexadecimal digit character, none for any other
character. -/
def hexDigitVal (c : Char) : Option Nat :=
  if '0' ≤ c ∧ c ≤ '9' then some (c.toNat - '0'.toNat)
  else if 'a' ≤ c ∧ c ≤ 'f' then some (c.toNat - 'a'.toNat + 10)
  else if 'A' ≤ c ∧ c ≤ 'F' then some (c.toNat - 'A'.toNat + 10)
  else none

/-- Pairwise hex decoding: stops at the first pair containing a non hex
character and at an odd tail, as Node Buffer.from with hex encoding does. -/
def hexPairsToBytes : List Char → List Nat
  | c1 :: c2 :: rest =>
    match hexDigitVal c1, hexDigitVal c2 with
    | some hi, some lo => (16 * hi + lo) :: hexPairsToBytes rest
    | _, _ => []
  | _ => []

/-- Models Buffer.from(s, hex): decodes as many leading hex digit pairs as
possible and silently drops the rest, never throwing. -/
def hexToBytes (s : String) : List Nat := hexPairsToBytes s.data

/-- Lower case hex digit for a value below 16. -/
def hexDigitChar (n : Nat) : Char :=
  if n < 10 then Char.ofNat ('0'.toNat + n) else Char.ofNat ('a'.toNat + n - 10)

/-- Two lower case hex digits of a byte. -/
def byteToHexChars (b : Nat) : List Char := [hexDigitChar (b / 16), hexDigitChar (b % 16)]

/-- Models Buffer.toString(hex): lower case hex rendering of a byte list. -/
def bytesToHex (l : List Nat) : String := String.mk (l.map byteToHexChars).flatten

/-- Models Buffer.readUInt16LE as a total function; the source only calls
it at offsets checked to be in range. -/
def readUInt16LE (l : List Nat) (offset : Nat) : Nat :=
  l.getD offset 0 + 256 * l.getD (offset + 1) 0

/-- Models Buffer.readUInt32LE as a total function; the source only calls
it at offsets checked to be in range. -/
def readUInt32LE (l : List Nat) (offset : Nat) : Nat :=
  l.getD offset 0 + 256 * l.getD (offset + 1) 0 +
    65536 * l.getD (offset + 2) 0 + 16777216 * l.getD (offset + 3) 0

/-! ## SHA-256 (model of the Node crypto sha256 digest, per FIPS 180-4)

The source hashes through the Node crypto module.  The definitions below
implement SHA-256 from the standard; the round constants are computed from
the cube and square roots of the first primes exactly as the standard
defines them, and the implementation was checked against the published
digests of the empty message and of the three byte message abc. -/

/-- Integer cube root by bisection; the fuel of 240 covers every argument
below 2 to the 240, far beyond the inputs used for the round constants. -/
def icbrtGo (n : Nat) : Nat → Nat → Nat → Nat
  | 0, lo, _ => lo
  | fuel + 1, lo, hi =>
    let mid := (lo + hi) / 2
    if mid = lo then lo
    else if mid ^ 3 ≤ n then icbrtGo n fuel mid hi else icbrtGo n fuel lo mid

/-- Integer cube root. -/
def icbrt (n : Nat) : Nat := icbrtGo n 240 0 (n + 1)

/-- The first 64 primes, whose roots yield the SHA-256 constants. -/
def sha256Primes : List Nat :=
  [2, 3, 5, 7, 11, 13, 17, 19, 23, 29, 31, 37, 41, 43, 47, 53,
   59, 61, 67, 71, 73, 79, 83, 89, 97, 101, 103, 107, 109, 113, 127, 131,
   137, 139, 149, 151, 157, 163, 167, 173, 179, 181, 191, 193, 197, 199, 211, 223,
   227, 229, 233, 239, 241, 251, 257, 263, 269, 271, 277, 281, 283, 293, 307, 311]

/-- Round constants: first 32 bits of the fractional parts of the cube
roots of the first 64 primes. -/
def sha256K : List Nat :=
  sha256Primes.map (fun p => icbrt (p * 2 ^ 96) % 2 ^ 32)

/-- Initial state: first 32 bits of the fractional parts of the square
roots of the first 8 primes. -/
def sha256H0 : List Nat :=
  (sha256Primes.take 8).map (fun p => Nat.sqrt (p * 2 ^ 64) % 2 ^ 32)

/-- Truncation to a 32 bit word. -/
def w32 (n : Nat) : Nat := n % 4294967296

/-- Right rotation of a 32 bit word. -/
def rotr32 (x n : Nat) : Nat := w32 ((x >>> n) ||| (x <<< (32 - n)))

/-- Big sigma 0 of FIPS 180-4. -/
def bsig0 (x : Nat) : Nat := (rotr32 x 2) ^^^ (rotr32 x 13) ^^^ (rotr32 x 22)

/-- Big sigma 1 of FIPS 180-4. -/
def bsig1 (x : Nat) : Nat := (rotr32 x 6) ^^^ (rotr32 x 11) ^^^ (rotr32 x 25)

/-- Small sigma 0 of FIPS 180-4. -/
def ssig0 (x : Nat) : Nat := (rotr32 x 7) ^^^ (rotr32 x 18) ^^^ (x >>> 3)

/-- Small sigma 1 of FIPS 180-4. -/
def ssig1 (x : Nat) : Nat := (rotr32 x 17) ^^^ (rotr32 x 19) ^^^ (x >>> 10)

/-- Message padding: a 0x80 byte, zeros to 56 modulo 64, and the bit length
as a big endian 64 bit integer. -/
def sha256Pad (msg : List Nat) : List Nat :=
  let len := msg.length
  let bitLen := 8 * len
  let padZeros := (119 - len % 64) % 64
  msg ++ [0x80] ++ List.replicate padZeros 0 ++
    [(bitLen >>> 56) % 256, (bitLen >>> 48) % 256, (bitLen >>> 40) % 256, (bitLen >>> 32) % 256,
     (bitLen >>> 24) % 256, (bitLen >>> 16) % 256, (bitLen >>> 8) % 256, bitLen % 256]

/-- Big endian 32 bit word number i of a block. -/
def beWord (bytes : List Nat) (i : Nat) : Nat :=
  16777216 * bytes.getD (4 * i) 0 + 65536 * bytes.getD (4 * i + 1) 0 +
    256 * bytes.getD (4 * i + 2) 0 + bytes.getD (4 * i + 3) 0

/-- Message schedule extension by the given number of words. -/
def scheduleExt (w : List Nat) : Nat → List Nat
  | 0 => w
  | fuel + 1 =>
    let t := w.length
    let next := w32 (w.getD (t - 16) 0 + ssig0 (w.getD (t - 15) 0) +
      w.getD (t - 7) 0 + ssig1 (w.getD (t - 2) 0))
    scheduleExt (w ++ [next]) fuel

/-- The 64 word message schedule of a block. -/
def sha256Schedule (block : List Nat) : List Nat :=
  scheduleExt ((List.range 16).map (beWord block)) 48

/-- One compression round; the state is the list of the eight working
variables. -/
def sha256Round (w : List Nat) (st : List Nat) (t : Nat) : List Nat :=
  let a := st.getD 0 0
  let b := st.getD 1 0
  let c := st.getD 2 0
  let d := st.getD 3 0
  let e := st.getD 4 0
  let f := st.getD 5 0
  let g := st.getD 6 0
  let h := st.getD 7 0
  let ch := (e &&& f) ^^^ ((4294967295 ^^^ e) &&& g)
  let maj := (a &&& b) ^^^ (a &&& c) ^^^ (b &&& c)
  let t1 := w32 (h + bsig1 e + ch + sha256K.getD t 0 + w.getD t 0)
  let t2 := w32 (bsig0 a + maj)
  [w32 (t1 + t2), a, b, c, w32 (d + t1), e, f, g]

/-- Compression of one 64 byte block into the running state. -/
def sha256Compress (state : List Nat) (block : List Nat) : List Nat :=
  let w := sha256Schedule block
  let final := (List.range 64).foldl (sha256Round w) state
  List.zipWith (fun x y => w32 (x + y)) state final

/-- Splits a byte list into chunks of 64; the fuel argument dominates the
number of chunks. -/
def chunksGo : Nat → List Nat → List (List Nat)
  | 0, _ => []
  | fuel + 1, l => if l = [] then [] else l.take 64 :: chunksGo fuel (l.drop 64)

/-- Splits a byte list into its 64 byte blocks. -/
def chunk64 (l : List Nat) : List (List Nat) := chunksGo l.length l

/-- SHA-256 of a byte list, as a 32 byte list. -/
def sha256 (msg : List Nat) : List Nat :=
  let digest := (chunk64 (sha256Pad msg)).foldl sha256Compress sha256H0
  (digest.map (fun n => [(n >>> 24) % 256, (n >>> 16) % 256, (n >>> 8) % 256, n % 256])).flatten

/-! ## Block header parsing (src/lib/utils.ts, parseBlockHeader) -/

/-- Parsed block header, fields in the order they are returned by the
source: display hash, version, previous hash, merkle root, timestamp,
bits, nonce. -/
structure BlockHeader where
  hash : String
  version : Nat
  prevHash : String
  merkleRoot : String
  timestamp : Nat
  bits : Nat
  nonce : Nat
deriving DecidableEq

/-- The two errors thrown by parseBlockHeader: a missing or short hex
string, and a decoded byte count different from 80. -/
inductive HeaderParseError where
  | invalidHexString
  | invalidLength (got : Nat)
deriving DecidableEq

/-- Embeds parseBlockHeader from src/lib/utils.ts: requires at least 160
characters, decodes the hex (with the truncating Node semantics), requires
exactly 80 decoded bytes, reads the four little endian integer fields at
their documented offsets, byte reverses the two 32 byte hash fields for
display, and computes the display hash as the byte reversed double SHA-256
of the header bytes. -/
def parseBlockHeader (headerHex : String) : Except HeaderParseError BlockHeader :=
  if headerHex.length < 160 then .error .invalidHexString
  else
    let header := hexToBytes headerHex
    if header.length ≠ 80 then .error (.invalidLength header.length)
    else
      .ok ⟨bytesToHex ((sha256 (sha256 header)).reverse),
        readUInt32LE header 0,
        bytesToHex (((header.drop 4).take 32).reverse),
        bytesToHex (((header.drop 36).take 32).reverse),
        readUInt32LE header 68, readUInt32LE header 72, readUInt32LE header 76⟩

/-! ## Transaction walk (src/lib/utils.ts, parseTransactionHashesFromBlock) -/

/-- Embeds readVarint from src/lib/utils.ts: the standard prefix rule, with
a thrown buffer overflow error (modelled as the error of an Except) when
the field would run past the buffer.  As in the source, the 0xff marker is
read as a 32 bit value while consuming 9 bytes. -/
def readVarint (buffer : List Nat) (offset : Nat) : Except Unit (Nat × Nat) :=
  if buffer.length ≤ offset then .error ()
  else
    let firstByte := buffer.getD offset 0
    if firstByte < 0xfd then .ok (firstByte, 1)
    else if firstByte = 0xfd then
      if buffer.length < offset + 3 then .error ()
      else .ok (readUInt16LE buffer (offset + 1), 3)
    else if firstByte = 0xfe then
      if buffer.length < offset + 5 then .error ()
      else .ok (readUInt32LE buffer (offset + 1), 5)
    else
      if buffer.length < offset + 9 then .error ()
      else .ok (readUInt32LE buffer (offset + 1), 9)

/-- Models the substring taken from the block hex string for hashing one
transaction (JavaScript String.substring with start and end indices). -/
def jsSubstring (s : String) (a b : Nat) : String :=
  String.mk ((s.data.drop a).take (b - a))

/-- The transaction id computed by the source: double SHA-256 of the bytes
of the given hex character range, byte reversed and rendered as hex. -/
def txidOfRange (blockHex : String) (a b : Nat) : String :=
  bytesToHex ((sha256 (sha256 (hexToBytes (jsSubstring blockHex a b)))).reverse)

/-- Embeds the input skipping loop of the walk: for each input, a bounds
checked 36 byte previous output reference, a script length varint (which
can throw), the script bytes and a 4 byte sequence; a failed bounds check
breaks out of the loop, returning the current offset. -/
def skipInputs (buffer : List Nat) : Nat → Nat → Except Unit Nat
  | 0, offset => .ok offset
  | count + 1, offset =>
    if offset < buffer.length then
      if buffer.length < offset + 36 then .ok offset
      else
        match readVarint buffer (offset + 36) with
        | .error e => .error e
        | .ok (scriptLen, size) =>
          let offset1 := offset + 36 + size
          if buffer.length < offset1 + scriptLen then .ok offset1
          else if buffer.length < offset1 + scriptLen + 4 then .ok (offset1 + scriptLen)
          else skipInputs buffer count (offset1 + scriptLen + 4)
    else .ok offset

/-- Embeds the output skipping loop of the walk: for each output, a bounds
checked 8 byte value, a script length varint (which can throw) and the
script bytes. -/
def skipOutputs (buffer : List Nat) : Nat → Nat → Except Unit Nat
  | 0, offset => .ok offset
  | count + 1, offset =>
    if offset < buffer.length then
      if buffer.length < offset + 8 then .ok offset
      else
        match readVarint buffer (offset + 8) with
        | .error e => .error e
        | .ok (scriptLen, size) =>
          let offset1 := offset + 8 + size
          if buffer.length < offset1 + scriptLen then .ok offset1
          else skipOutputs buffer count (offset1 + scriptLen)
    else .ok offset

/-- One iteration of the transaction loop of the source: version, input
count, inputs, output count, outputs, locktime.  Returns none when a
bounds check breaks out of the loop, the end offset and transaction id
when a full transaction was consumed, and an error when a varint read
throws. -/
def stepTx (blockHex : String) (buffer : List Nat) (offset : Nat) :
    Except Unit (Option (Nat × String)) :=
  if buffer.length < offset + 4 then .ok none
  else
    match readVarint buffer (offset + 4) with
    | .error e => .error e
    | .ok (inputCount, size) =>
      match skipInputs buffer inputCount (offset + 4 + size) with
      | .error e => .error e
      | .ok offset2 =>
        if buffer.length ≤ offset2 then .ok none
        else
          match readVarint buffer offset2 with
          | .error e => .error e
          | .ok (outputCount, size2) =>
            match skipOutputs buffer outputCount (offset2 + size2) with
            | .error e => .error e
            | .ok offset3 =>
              if buffer.length < offset3 + 4 then .ok none
              else .ok (some (offset3 + 4, txidOfRange blockHex (2 * offset) (2 * (offset3 + 4))))

/-- The transaction loop of the source: up to count transactions are
consumed while the offset stays inside the buffer, accumulating their
transaction ids; a break returns the accumulated ids, a varint overflow
propagates as an error. -/
def walkTxs (blockHex : String) (buffer : List Nat) :
    Nat → Nat → List String → Except Unit (List String)
  | 0, _, acc => .ok acc
  | count + 1, offset, acc =>
    if offset < buffer.length then
      match stepTx blockHex buffer offset with
      | .error e => .error e
      | .ok none => .ok acc
      | .ok (some (offset2, txid)) => walkTxs blockHex buffer count offset2 (acc ++ [txid])
    else .ok acc

/-- The same walk, returning the transaction ids accumulated up to the
stopping point also when a varint overflow occurs.  This is the reading of
the specification: the hashes successfully parsed before the truncation
point. -/
def walkTxsPartial (blockHex : String) (buffer : List Nat) :
    Nat → Nat → List String → List String
  | 0, _, acc => acc
  | count + 1, offset, acc =>
    if offset < buffer.length then
      match stepTx blockHex buffer offset with
      | .error _ => acc
      | .ok none => acc
      | .ok (some (offset2, txid)) => walkTxsPartial blockHex buffer count offset2 (acc ++ [txid])
    else acc

/-- Embeds parseTransactionHashesFromBlock from src/lib/utils.ts: header
only strings yield no hashes, the transaction count varint is read at byte
80, and the surrounding try catch of the source turns any thrown varint
overflow into an empty result. -/
def parseTransactionHashesFromBlock (blockHex : String) : List String :=
  if blockHex.length ≤ 160 then []
  else
    let blockBuffer := hexToBytes blockHex
    match readVarint blockBuffer 80 with
    | .error _ => []
    | .ok (txCount, size) =>
      match walkTxs blockHex blockBuffer txCount (80 + size) [] with
      | .error _ => []
      | .ok l => l

/-- Modelled from the words of the specification: the transaction hashes
successfully parsed before the truncation point of a block hex string,
that is, the accumulated hashes at the moment the walk stops for any
reason. -/
def specHashesParsedBeforeTruncation (blockHex : String) : List String :=
  if blockHex.length ≤ 160 then []
  else
    let blockBuffer := hexToBytes blockHex
    match readVarint blockBuffer 80 with
    | .error _ => []
    | .ok (txCount, size) => walkTxsPartial blockHex blockBuffer txCount (80 + size) []

/-- A block cut off in the middle of its second transaction: an 80 byte
header, a transaction count of 2, one complete minimal transaction of 60
bytes, and a second transaction truncated inside its input count varint
(marker byte 0xfd followed by a single byte where two are required). -/
def truncatedBlockBytes : List Nat :=
  List.replicate 80 0 ++ [2] ++
    ([1, 0, 0, 0] ++ [1] ++ List.replicate 36 0 ++ [0] ++ [255, 255, 255, 255] ++
      [1] ++ List.replicate 8 0 ++ [0] ++ [0, 0, 0, 0]) ++
    [1, 0, 0, 0, 0xfd, 0]

/-- Hex rendering of the truncated block. -/
def truncatedBlockHex : String := bytesToHex truncatedBlockBytes

/-! ## AES-256-GCM (model of the Web Crypto AES-GCM cipher, per FIPS 197
and NIST SP 800-38D)

The source encrypts through crypto.subtle with AES-GCM and a PBKDF2
derived key.  The definitions below implement the cipher from the
standards: the S box is computed from the GF(2^8) inverse and the affine
transform instead of a memorized table, and the implementation was checked
against the FIPS 197 appendix C.3 block cipher vector and two NIST GCM
test vectors.  Bytes live in Uint8Array cells, hence the explicit
reductions modulo 256. -/

/-- Byte level exclusive or, as performed on Uint8Array contents. -/
def byteXor (a b : Nat) : Nat := (a ^^^ b) % 256

/-- Multiplication by x in GF(2^8) modulo the AES polynomial 0x11B. -/
def xtime (b : Nat) : Nat := if b * 2 < 256 then b * 2 else (b * 2) ^^^ 0x11B

/-- Russian peasant multiplication loop in GF(2^8). -/
def gfMulGo : Nat → Nat → Nat → Nat → Nat
  | 0, _, _, acc => acc
  | fuel + 1, a, b, acc =>
    let acc' := if b % 2 = 1 then acc ^^^ a else acc
    gfMulGo fuel (xtime a) (b / 2) acc'

/-- Multiplication in GF(2^8). -/
def gfMul (a b : Nat) : Nat := gfMulGo 8 a b 0

/-- Power in GF(2^8). -/
def gfPow (a : Nat) : Nat → Nat
  | 0 => 1
  | n + 1 => gfMul a (gfPow a n)

/-- Multiplicative inverse in GF(2^8) (zero maps to zero), via the order of
the multiplicative group. -/
def gfInv (b : Nat) : Nat := gfPow b 254

/-- Left rotation of a byte. -/
def rotl8 (x n : Nat) : Nat := ((x <<< n) ||| (x >>> (8 - n))) % 256

/-- The AES S box: affine transform of the GF(2^8) inverse. -/
def sbox (b : Nat) : Nat :=
  let i := gfInv b
  (i ^^^ rotl8 i 1 ^^^ rotl8 i 2 ^^^ rotl8 i 3 ^^^ rotl8 i 4 ^^^ 0x63) % 256

/-- S box applied to each byte of a 32 bit word. -/
def subWord (w : Nat) : Nat :=
  16777216 * sbox ((w >>> 24) % 256) + 65536 * sbox ((w >>> 16) % 256) +
    256 * sbox ((w >>> 8) % 256) + sbox (w % 256)

/-- Byte rotation of a 32 bit word. -/
def rotWord (w : Nat) : Nat := ((w <<< 8) ||| (w >>> 24)) % 4294967296

/-- Key expansion loop for AES-256: 52 derived words after the 8 key
words, with the round constant and S box schedule of FIPS 197. -/
def expandGo : Nat → List Nat → List Nat
  | 0, w => w
  | fuel + 1, w =>
    let i := w.length
    let prev := w.getD (i - 1) 0
    let temp :=
      if i % 8 = 0 then (subWord (rotWord prev)) ^^^ (2 ^ (i / 8 - 1) * 16777216)
      else if i % 8 = 4 then subWord prev
      else prev
    expandGo fuel (w ++ [(w.getD (i - 8) 0) ^^^ temp])

/-- The 60 word expanded key of AES-256. -/
def keyExpansion (key : List Nat) : List Nat :=
  expandGo 52 ((List.range 8).map (beWord key))

/-- The 16 bytes of round key r. -/
def roundKeyBytes (w : List Nat) (r : Nat) : List Nat :=
  (List.range 16).map (fun i => (w.getD (4 * r + i / 4) 0 >>> (8 * (3 - i % 4))) % 256)

/-- SubBytes on a 16 byte column major state. -/
def subBytes (st : List Nat) : List Nat := st.map sbox

/-- ShiftRows on a 16 byte column major state: row r rotates left by r. -/
def shiftRows (st : List Nat) : List Nat :=
  (List.range 16).map (fun i => st.getD ((i + 4 * (i % 4)) % 16) 0)

/-- MixColumns on one column. -/
def mixColumn (a0 a1 a2 a3 : Nat) : List Nat :=
  [gfMul 2 a0 ^^^ gfMul 3 a1 ^^^ a2 ^^^ a3,
   a0 ^^^ gfMul 2 a1 ^^^ gfMul 3 a2 ^^^ a3,
   a0 ^^^ a1 ^^^ gfMul 2 a2 ^^^ gfMul 3 a3,
   gfMul 3 a0 ^^^ a1 ^^^ a2 ^^^ gfMul 2 a3]

/-- MixColumns on the state. -/
def mixColumns (st : List Nat) : List Nat :=
  ((List.range 4).map (fun c =>
    mixColumn (st.getD (4 * c) 0) (st.getD (4 * c + 1) 0)
      (st.getD (4 * c + 2) 0) (st.getD (4 * c + 3) 0))).flatten

/-- AddRoundKey on the state. -/
def addRoundKey (st rk : List Nat) : List Nat :=
  (List.range 16).map (fun i => byteXor (st.getD i 0) (rk.getD i 0))

/-- The 13 middle rounds of AES-256. -/
def aesMainRounds (w : List Nat) : Nat → Nat → List Nat → List Nat
  | 0, _, st => st
  | fuel + 1, r, st =>
    aesMainRounds w fuel (r + 1)
      (addRoundKey (mixColumns (shiftRows (subBytes st))) (roundKeyBytes w r))

/-- AES-256 block encryption of a 16 byte block. -/
def aesEncryptBlock (key block : List Nat) : List Nat :=
  let w := keyExpansion key
  let st0 := addRoundKey block (roundKeyBytes w 0)
  let st := aesMainRounds w 13 1 st0
  addRoundKey (shiftRows (subBytes st)) (roundKeyBytes w 14)

/-- Big endian byte rendering of a natural number in a fixed width. -/
def natToBytesBE (n len : Nat) : List Nat :=
  (List.range len).map (fun i => (n >>> (8 * (len - 1 - i))) % 256)

/-- Big endian byte list to natural number. -/
def bytesToNatBE (l : List Nat) : Nat := l.foldl (fun acc b => 256 * acc + b) 0

/-- The GCM reduction constant R, as a 128 bit big endian integer. -/
def gf128R : Nat := 0xE1000000000000000000000000000000

/-- Bitwise multiplication loop in GF(2^128) with the GCM bit order. -/
def gf128MulGo (x : Nat) : Nat → Nat → Nat → Nat
  | 0, _, z => z
  | fuel + 1, v, z =>
    let i := 128 - (fuel + 1)
    let z' := if (x >>> (127 - i)) % 2 = 1 then z ^^^ v else z
    let v' := if v % 2 = 1 then (v >>> 1) ^^^ gf128R else v >>> 1
    gf128MulGo x fuel v' z'

/-- Multiplication in GF(2^128) as used by GHASH. -/
def gf128Mul (x y : Nat) : Nat := gf128MulGo x 128 y 0

/-- GHASH accumulation over 16 byte blocks. -/
def ghashBlocks (h : Nat) : List (List Nat) → Nat → Nat
  | [], y => y
  | b :: rest, y => ghashBlocks h rest (gf128Mul (y ^^^ bytesToNatBE b) h)

/-- Splits into zero padded 16 byte blocks; the fuel dominates the number
of blocks. -/
def chunks16Go : Nat → List Nat → List (List Nat)
  | 0, _ => []
  | fuel + 1, l =>
    if l = [] then []
    else (l.take 16 ++ List.replicate (16 - l.length) 0) :: chunks16Go fuel (l.drop 16)

/-- Splits a byte list into zero padded 16 byte blocks. -/
def chunks16 (l : List Nat) : List (List Nat) := chunks16Go l.length l

/-- The GCM authentication tag over a ciphertext (no additional
authenticated data, 96 bit IV): GHASH under the hash subkey, encrypted
with the initial counter block. -/
def gcmTagOf (key iv ct : List Nat) : List Nat :=
  let h := bytesToNatBE (aesEncryptBlock key (List.replicate 16 0))
  let lenBlock := natToBytesBE 0 8 ++ natToBytesBE (8 * ct.length) 8
  let s := ghashBlocks h (chunks16 ct ++ [lenBlock]) 0
  let j0 := iv ++ [0, 0, 0, 1]
  List.zipWith byteXor (aesEncryptBlock key j0) (natToBytesBE s 16)

/-- The CTR keystream of GCM: counter blocks 2, 3, ... appended to the 96
bit IV, truncated to the message length. -/
def ctrKeystream (key iv : List Nat) (n : Nat) : List Nat :=
  (((List.range ((n + 15) / 16)).map
    (fun i => aesEncryptBlock key (iv ++ natToBytesBE (i + 2) 4))).flatten).take n

/-- AES-GCM encryption as exposed by crypto.subtle.encrypt: the ciphertext
with the 16 byte tag appended. -/
def gcmEncrypt (key iv pt : List Nat) : List Nat :=
  let ct := List.zipWith byteXor pt (ctrKeystream key iv pt.length)
  ct ++ gcmTagOf key iv ct

/-- AES-GCM decryption as exposed by crypto.subtle.decrypt: splits off the
16 byte tag, rejects the input when the recomputed tag differs, and
returns the decrypted bytes otherwise. -/
def gcmDecrypt (key iv data : List Nat) : Option (List Nat) :=
  if data.length < 16 then none
  else
    let ct := data.take (data.length - 16)
    let tag := data.drop (data.length - 16)
    if gcmTagOf key iv ct = tag then
      some (List.zipWith byteXor ct (ctrKeystream key iv ct.length))
    else none

/-! ## Text and base64 codecs (TextEncoder, TextDecoder, btoa, atob) -/

/-- UTF-8 encoding of one code point, the arithmetic form of the standard
1 to 4 byte scheme. -/
def utf8EncodeChar (c : Nat) : List Nat :=
  if c < 0x80 then [c]
  else if c < 0x800 then [0xC0 + c / 64, 0x80 + c % 64]
  else if c < 0x10000 then [0xE0 + c / 4096, 0x80 + (c / 64) % 64, 0x80 + c % 64]
  else [0xF0 + c / 262144, 0x80 + (c / 4096) % 64, 0x80 + (c / 64) % 64, 0x80 + c % 64]

/-- UTF-8 encoding of a code point sequence. -/
def utf8Encode (cps : List Nat) : List Nat := (cps.map utf8EncodeChar).flatten

/-- Models TextEncoder.encode on a string (strings are sequences of
Unicode scalar values). -/
def utf8EncodeStr (s : String) : List Nat := utf8Encode (s.data.map Char.toNat)

/-- UTF-8 decoding loop; the fuel dominates the number of decoded code
points, and truncated sequences produce the replacement character as
TextDecoder does. -/
def utf8DecodeGo : Nat → List Nat → List Nat
  | 0, _ => []
  | _, [] => []
  | fuel + 1, b :: rest =>
    if b < 0x80 then b :: utf8DecodeGo fuel rest
    else if b < 0xE0 then
      match rest with
      | b2 :: rest2 => ((b - 0xC0) * 64 + (b2 - 0x80)) :: utf8DecodeGo fuel rest2
      | [] => [0xFFFD]
    else if b < 0xF0 then
      match rest with
      | b2 :: b3 :: rest3 =>
        ((b - 0xE0) * 4096 + (b2 - 0x80) * 64 + (b3 - 0x80)) :: utf8DecodeGo fuel rest3
      | _ => [0xFFFD]
    else
      match rest with
      | b2 :: b3 :: b4 :: rest4 =>
        ((b - 0xF0) * 262144 + (b2 - 0x80) * 4096 + (b3 - 0x80) * 64 + (b4 - 0x80)) ::
          utf8DecodeGo fuel rest4
      | _ => [0xFFFD]

/-- UTF-8 decoding of a byte list into code points. -/
def utf8Decode (l : List Nat) : List Nat := utf8DecodeGo l.length l

/-- Models TextDecoder.decode on the byte lists this development feeds it. -/
def utf8DecodeStr (l : List Nat) : String := String.mk ((utf8Decode l).map Char.ofNat)

/-- Character of one base64 digit. -/
def b64Char (n : Nat) : Char :=
  if n < 26 then Char.ofNat ('A'.toNat + n)
  else if n < 52 then Char.ofNat ('a'.toNat + (n - 26))
  else if n < 62 then Char.ofNat ('0'.toNat + (n - 52))
  else if n = 62 then '+'
  else '/'

/-- Value of one base64 character. -/
def b64Val (c : Char) : Option Nat :=
  if 'A' ≤ c ∧ c ≤ 'Z' then some (c.toNat - 'A'.toNat)
  else if 'a' ≤ c ∧ c ≤ 'z' then some (c.toNat - 'a'.toNat + 26)
  else if '0' ≤ c ∧ c ≤ '9' then some (c.toNat - '0'.toNat + 52)
  else if c = '+' then some 62
  else if c = '/' then some 63
  else none

/-- Base64 rendering of a byte list in chunks of three, with padding. -/
def btoaChars : List Nat → List Char
  | [] => []
  | [a] => [b64Char (a / 4), b64Char ((a % 4) * 16), '=', '=']
  | [a, b] => [b64Char (a / 4), b64Char ((a % 4) * 16 + b / 16), b64Char ((b % 16) * 4), '=']
  | a :: b :: c :: rest =>
    b64Char (a / 4) :: b64Char ((a % 4) * 16 + b / 16) :: b64Char ((b % 16) * 4 + c / 64) ::
      b64Char (c % 64) :: btoaChars rest

/-- Models btoa applied to a byte string. -/
def btoa (l : List Nat) : String := String.mk (btoaChars l)

/-- Base64 decoding in chunks of four characters with padding handling;
invalid input yields an empty tail (the browser function throws, but only
round trips of btoa output are consumed here). -/
def atobChars : List Char → List Nat
  | c1 :: c2 :: c3 :: c4 :: rest =>
    match b64Val c1, b64Val c2 with
    | some v1, some v2 =>
      let b1 := v1 * 4 + v2 / 16
      if c3 = '=' then [b1]
      else
        match b64Val c3 with
        | some v3 =>
          let b2 := (v2 % 16) * 16 + v3 / 4
          if c4 = '=' then [b1, b2]
          else
            match b64Val c4 with
            | some v4 => b1 :: b2 :: ((v3 % 4) * 64 + v4) :: atobChars rest
            | none => []
        | none => []
    | _, _ => []
  | _ => []

/-- Models atob. -/
def atob (s : String) : List Nat := atobChars s.data

/-! ## Password based encryption (src/lib/wallet/password.ts) -/

/-- HMAC-SHA256 per RFC 2104, block size 64 bytes. -/
def hmacSha256 (key msg : List Nat) : List Nat :=
  let k0 := if 64 < key.length then sha256 key ++ List.replicate 32 0
            else key ++ List.replicate (64 - key.length) 0
  let ipad := k0.map (fun b => b ^^^ 0x36)
  let opad := k0.map (fun b => b ^^^ 0x5c)
  sha256 (opad ++ sha256 (ipad ++ msg))

/-- Iteration loop of PBKDF2: successive HMAC applications folded together
with exclusive or. -/
def pbkdf2Go (password : List Nat) : Nat → List Nat → List Nat → List Nat
  | 0, _, acc => acc
  | fuel + 1, u, acc =>
    let u' := hmacSha256 password u
    pbkdf2Go password fuel u' (List.zipWith (fun a b => a ^^^ b) acc u')

/-- PBKDF2 with HMAC-SHA256 for a 32 byte key (a single block, so only the
first block index is used). -/
def pbkdf2Sha256 (password salt : List Nat) (iterations : Nat) : List Nat :=
  let u1 := hmacSha256 password (salt ++ [0, 0, 0, 1])
  pbkdf2Go password (iterations - 1) u1 u1

/-- Iteration count of the source. -/
def PBKDF2_ITERATIONS : Nat := 100000

/-- Embeds deriveKey from src/lib/wallet/password.ts: the 256 bit AES key
derived from the password and salt with PBKDF2 over SHA-256. -/
def deriveKey (password : String) (salt : List Nat) : List Nat :=
  pbkdf2Sha256 (utf8EncodeStr password) salt PBKDF2_ITERATIONS

/-- The EncryptedData record of the source: base64 ciphertext, salt, IV
and authentication tag. -/
structure EncryptedData where
  encrypted : String
  salt : String
  iv : String
  tag : String
deriving DecidableEq

/-- Embeds encryptWithPassword from src/lib/wallet/password.ts.  The fresh
random salt and IV drawn from crypto.getRandomValues are passed as
explicit arguments.  The source splits the crypto.subtle output into the
ciphertext (all but the last 16 bytes) and the tag (the last 16 bytes)
before encoding each part in base64. -/
def encryptWithPassword (data password : String) (salt iv : List Nat) : EncryptedData :=
  let key := deriveKey password salt
  let encrypted := gcmEncrypt key iv (utf8EncodeStr data)
  let tag := encrypted.drop (encrypted.length - 16)
  let ciphertext := encrypted.take (encrypted.length - 16)
  ⟨btoa ciphertext, btoa salt, btoa iv, btoa tag⟩

/-- Embeds decryptWithPassword from src/lib/wallet/password.ts: decodes
the four base64 fields, reassembles ciphertext and tag for GCM, derives
the key from the password and the stored salt, and maps every failure
(the source catches and rethrows a single generic error) to the error
case. -/
def decryptWithPassword (e : EncryptedData) (password : String) : Except Unit String :=
  let salt := atob e.salt
  let iv := atob e.iv
  let ciphertext := atob e.encrypted
  let tag := atob e.tag
  let encrypted := ciphertext ++ tag
  let key := deriveKey password salt
  match gcmDecrypt key iv encrypted with
  | none => .error ()
  | some decrypted => .ok (utf8DecodeStr decrypted)

/-- Sample secret for the witness: an ASCII mnemonic style phrase. -/
def sampleSecret : String := "abandon ability able about above absent absorb abstract"

/-- Sample password for the witness. -/
def samplePassword : String := "correct horse battery staple"

/-! ## Theorems -/

/-- The fee loop of estimateFee tracks the fee recomputed by buildAndSignTx
after its selection loop: both greedily take utxos in order, recompute the
fee from the running input count, and stop at the same point. -/
theorem estimateFeeLoop_eq_selectUtxosLoop (amountSats : Int) (feeRate : ℚ) (includeFee : Bool) :
    ∀ (utxos sel : List Utxo) (tin f : Int), utxos ≠ [] →
    estimateFeeLoop amountSats feeRate includeFee utxos sel.length tin f =
      feeForSize (estimateVBytes
        (selectUtxosLoop amountSats feeRate includeFee utxos sel tin).1.length
        (if includeFee then 1 else 2)) feeRate
  | [], _, _, _, h => absurd rfl h
  | u :: rest, sel, tin, f, _ => by
    have hlen : (sel ++ [u]).length = sel.length + 1 := by simp
    simp only [estimateFeeLoop, selectUtxosLoop, hlen]
    by_cases hc : (if includeFee then amountSats
        else amountSats + feeForSize (estimateVBytes (sel.length + 1)
          (if includeFee then 1 else 2)) feeRate) ≤ tin + u.value
    · rw [if_pos hc, if_pos hc, hlen]
    · rw [if_neg hc, if_neg hc]
      cases rest with
      | nil => simp [estimateFeeLoop, selectUtxosLoop, hlen]
      | cons v rest' =>
        have ih := estimateFeeLoop_eq_selectUtxosLoop amountSats feeRate includeFee
          (v :: rest') (sel ++ [u]) (tin + u.value)
          (feeForSize (estimateVBytes (sel.length + 1) (if includeFee then 1 else 2)) feeRate)
          (by simp)
        rw [hlen] at ih
        exact ih

/-- On non degenerate inputs the estimate reported by estimateFee equals
the final fee estimate computed inside buildAndSignTx. -/
theorem buildEstimatedFee_eq_estimate (p : SpendTarget)
    (h1 : ¬p.amountSats ≤ 0) (h2 : ¬p.utxos = []) :
    (estimateFee p.amountSats p.feeRate p.utxos p.includeFee).estimatedFee
      = buildEstimatedFee p := by
  have h := estimateFeeLoop_eq_selectUtxosLoop p.amountSats p.feeRate p.includeFee p.utxos [] 0 0 h2
  simp only [List.length_nil] at h
  simp [estimateFee, h1, h2, buildEstimatedFee, buildSelected, h]

/-- Claim C3 (amended): for every successful buildAndSignTx, the realized
fee, computed as total selected input value minus the sum of the output
values of the finalized transaction, is at least the estimate returned by
estimateFee on the same amount, fee rate, utxos and includeFee flag, and
exceeds it by at most the 546 satoshi dust threshold (the excess being a
dust change that is absorbed into the fee); the claimed tolerance of one
vbyte equivalent of rounding does not hold, see the counterexample. -/
theorem realizedFee_close_to_estimate (p : SpendTarget) (b : BuiltTx)
    (h : buildAndSignTx p = .ok b) :
    (estimateFee p.amountSats p.feeRate p.utxos p.includeFee).estimatedFee ≤ b.fee ∧
    b.fee ≤ (estimateFee p.amountSats p.feeRate p.utxos p.includeFee).estimatedFee + 546 := by
  simp only [buildAndSignTx] at h
  split_ifs at h with h1 h2 h3 h4 hd
  all_goals simp only [Except.ok.injEq] at h
  all_goals subst h
  all_goals rw [buildEstimatedFee_eq_estimate p h1 h2]
  all_goals have hch : buildChange p = (buildSelected p).2 - buildActualAmount p - buildEstimatedFee p := rfl
  · dsimp only [Option.getD_some]
    omega
  · dsimp only [Option.getD_none]
    omega

/-- Helper evaluation lemma: with a fee rate of one satoshi per vbyte the
ceiling in the fee formula is the identity. -/
theorem feeForSize_one (v : Nat) : feeForSize v 1 = (v : Int) := by
  simp [feeForSize]

/-- Witness for the amended claim C3 at a concrete successful spend. -/
theorem realizedFee_close_to_estimate_witness :
    (estimateFee 1000 1 [⟨ "", 0, 100000⟩] false).estimatedFee ≤ (140 : Int) ∧
    (140 : Int) ≤ (estimateFee 1000 1 [⟨ "", 0, 100000⟩] false).estimatedFee + 546 :=
  realizedFee_close_to_estimate ⟨ "", 1000, 1, "", [⟨ "", 0, 100000⟩], false⟩
    ⟨[⟨ "", 0, 100000⟩], 100000, 140, 1000, some 98860, 140⟩
    (by norm_num [buildAndSignTx, buildChange, buildActualAmount, buildEstimatedFee,
      buildSelected, selectUtxosLoop, feeForSize_one, estimateVBytes])

/-- Counterexample for claim C3 as stated: with one utxo worth 100000,
amount 99560 and fee rate 1, the estimate is 140 satoshis but the realized
fee of the built transaction is 440 satoshis, because the 300 satoshi
change is below the dust threshold and is folded into the fee; 440 differs
from 140 by far more than one vbyte equivalent (1 satoshi). -/
theorem realizedFee_not_within_feeRate :
    estimateFee 99560 1 [⟨ "", 0, 100000⟩] false = ⟨140, 99560, 99700⟩ ∧
    buildAndSignTx ⟨ "", 99560, 1, "", [⟨ "", 0, 100000⟩], false⟩ =
      .ok ⟨[⟨ "", 0, 100000⟩], 100000, 140, 99560, none, 440⟩ ∧
    ¬(|(440 : Int) - 140| ≤ 1) := by
  refine ⟨?_, ?_, by decide⟩
  · norm_num [estimateFee, estimateFeeLoop, feeForSize_one, estimateVBytes]
  · norm_num [buildAndSignTx, buildChange, buildActualAmount, buildEstimatedFee,
      buildSelected, selectUtxosLoop, feeForSize_one, estimateVBytes]

/-- Claim C7: a successful buildAndSignTx never contains a change output of
value at most 546 satoshis, and a change output exists exactly when the
change (total selected input value minus recipient output value minus the
estimated fee) strictly exceeds the 546 satoshi dust threshold. -/
theorem change_output_above_dust (p : SpendTarget) (b : BuiltTx)
    (h : buildAndSignTx p = .ok b) :
    (∀ v, b.changeOutput = some v → 546 < v) ∧
    (b.changeOutput ≠ none ↔ 546 < buildChange p) := by
  simp only [buildAndSignTx] at h
  split_ifs at h with h1 h2 h3 h4 hd
  all_goals simp only [Except.ok.injEq] at h
  all_goals subst h
  · refine ⟨fun v hv => ?_, by simp [hd]⟩
    simp only [Option.some.injEq] at hv
    omega
  · exact ⟨fun v hv => by simp at hv, by simp [hd]⟩

/-- Witness for claim C7 at a concrete successful spend with change. -/
theorem change_output_above_dust_witness :
    (∀ v, (some (98860 : Int)) = some v → 546 < v) ∧
    ((some (98860 : Int)) ≠ none ↔
      546 < buildChange ⟨ "", 1000, 1, "", [⟨ "", 0, 100000⟩], false⟩) :=
  change_output_above_dust ⟨ "", 1000, 1, "", [⟨ "", 0, 100000⟩], false⟩
    ⟨[⟨ "", 0, 100000⟩], 100000, 140, 1000, some 98860, 140⟩
    (by norm_num [buildAndSignTx, buildChange, buildActualAmount, buildEstimatedFee,
      buildSelected, selectUtxosLoop, feeForSize_one, estimateVBytes])

/-- Claim C8: buildAndSignTx fails with exactly the specified typed errors,
with the guards checked in the order of the source: a non positive amount
raises InvalidAmount, then an empty utxo list raises NoFunds, then (with
includeFee) an amount that is at most the estimated fee raises
AmountBelowFee, then a negative change (selected inputs insufficient to
cover amount plus estimated fee) raises InsufficientBalance.  Because the
embedding returns an Except value, an error excludes a built transaction
by construction. -/
theorem buildAndSignTx_error_conditions (p : SpendTarget) :
    (p.amountSats ≤ 0 → buildAndSignTx p = .error .invalidAmount) ∧
    (¬p.amountSats ≤ 0 → p.utxos = [] → buildAndSignTx p = .error .noFunds) ∧
    (¬p.amountSats ≤ 0 → ¬p.utxos = [] → p.includeFee = true →
      p.amountSats - buildEstimatedFee p ≤ 0 →
      buildAndSignTx p = .error .amountBelowFee) ∧
    (¬p.amountSats ≤ 0 → ¬p.utxos = [] → ¬(buildActualAmount p ≤ 0 ∧ p.includeFee = true) →
      buildChange p < 0 → buildAndSignTx p = .error .insufficientBalance) := by
  refine ⟨fun h1 => by simp [buildAndSignTx, h1], fun h1 h2 => by simp [buildAndSignTx, h1, h2],
    fun h1 h2 h3 h4 => ?_, fun h1 h2 h3 h4 => by simp [buildAndSignTx, h1, h2, h3, h4]⟩
  have hact : buildActualAmount p ≤ 0 := by
    simp only [buildActualAmount, h3, if_pos]
    omega
  simp [buildAndSignTx, h1, h2, hact, h3]

/-- Witness for claim C8: each of the four error conditions is exercised at
a concrete input. -/
theorem buildAndSignTx_error_conditions_witness :
    buildAndSignTx ⟨ "", 0, 1, "", [⟨ "", 0, 100000⟩], false⟩ = .error .invalidAmount ∧
    buildAndSignTx ⟨ "", 1000, 1, "", [], false⟩ = .error .noFunds ∧
    buildAndSignTx ⟨ "", 50, 1, "", [⟨ "", 0, 100000⟩], true⟩ = .error .amountBelowFee ∧
    buildAndSignTx ⟨ "", 100, 1, "", [⟨ "", 0, 10⟩], false⟩ = .error .insufficientBalance := by
  refine ⟨(buildAndSignTx_error_conditions _).1 (by norm_num),
    (buildAndSignTx_error_conditions _).2.1 (by norm_num) rfl,
    (buildAndSignTx_error_conditions _).2.2.1 (by norm_num) (by simp) rfl ?_,
    (buildAndSignTx_error_conditions _).2.2.2 (by norm_num) (by simp) ?_ ?_⟩
  · norm_num [buildEstimatedFee, buildSelected, selectUtxosLoop, feeForSize_one, estimateVBytes]
  · norm_num [buildActualAmount]
  · norm_num [buildChange, buildActualAmount, buildEstimatedFee,
      buildSelected, selectUtxosLoop, feeForSize_one, estimateVBytes]

/-- Claim C1: the code evaluates the compact bits value 0x1d00ffff to a
difficulty of exactly 65536, not approximately 1.  The maximum target in
the source is written as 0xffff0000 times 256 to the power 26, which is
2 to the 16 times the standard difficulty one target 0xffff0000 times 256
to the power 24, contradicting the comment in the source that the constant
is the genesis block difficulty one target.  Every intermediate value of
this computation is exactly representable as an IEEE double, so the
floating point source returns exactly 65536 as well. -/
theorem calculateDifficultyFromBits_genesis_bits :
    calculateDifficultyFromBits 0x1d00ffff = 65536 := by
  have h1 : 486604799 >>> 24 = 29 := by decide
  have h2 : 486604799 &&& 8388607 = 65535 := by decide
  simp only [calculateDifficultyFromBits, h1, h2]
  norm_num

/-- Claim C10: estimateFee never throws and returns the all zero record
whenever the utxo list is empty or the requested amount is not positive,
in contrast to buildAndSignTx which raises typed errors on those inputs.
The embedding of estimateFee is a total function, so it cannot throw. -/
theorem estimateFee_zero_on_degenerate (amountSats : Int) (feeRate : ℚ)
    (utxos : List Utxo) (includeFee : Bool)
    (h : utxos = [] ∨ amountSats ≤ 0) :
    estimateFee amountSats feeRate utxos includeFee = ⟨0, 0, 0⟩ := by
  simp [estimateFee, h]

/-- Witness for C10 at a concrete degenerate input. -/
theorem estimateFee_zero_on_degenerate_witness :
    estimateFee 1000 2 [] true = ⟨0, 0, 0⟩ :=
  estimateFee_zero_on_degenerate 1000 2 [] true (Or.inl rfl)

/-- Claim C5 (amended): five consecutive failed unlock calls from a fresh
session install a lockout expiring LOCKOUT_DURATION (15 minutes) after the
fifth call; any unlock call while locked out and before expiry is rejected
without invoking password verification; a successful unlock resets the
attempt counter to zero and clears the lockout.  The final part of the
claim is amended: after the lockout window expires the attempt counter is
reset to zero only by the mount time restore effect; within a live session
the counter is left at its old value, so a single failed attempt after
expiry locks the session out again (see the counterexample). -/
theorem unlock_lockout_state_machine (now : Nat) :
    (iterateFailedUnlocks ⟨0, none⟩ now 5 = ⟨5, some (now + LOCKOUT_DURATION)⟩) ∧
    (∀ s t v, s.lockoutUntil = some t → now < t →
      unlockWallet s now v = ⟨s, .rejectedLockedOut, false⟩) ∧
    (∀ s, (∀ t, s.lockoutUntil = some t → t ≤ now) →
      unlockWallet s now true = ⟨⟨0, none⟩, .success, true⟩) ∧
    (∀ a t, t ≤ now → restoreLockState (some a) (some t) now = ⟨0, none⟩) := by
  refine ⟨rfl, fun s t v hs ht => ?_, fun s hs => ?_, fun a t ht => ?_⟩
  · simp [unlockWallet, hs, ht]
  · match h : s.lockoutUntil with
    | none => simp [unlockWallet, h, unlockVerify]
    | some t =>
      have := hs t h
      simp [unlockWallet, h, Nat.not_lt.mpr this, unlockVerify]
  · simp [restoreLockState, Nat.not_lt.mpr ht]

/-- Witness for the amended claim C5 at concrete states and times. -/
theorem unlock_lockout_state_machine_witness :
    iterateFailedUnlocks ⟨0, none⟩ 40 5 = ⟨5, some (40 + LOCKOUT_DURATION)⟩ ∧
    unlockWallet ⟨5, some 100⟩ 40 true = ⟨⟨5, some 100⟩, .rejectedLockedOut, false⟩ ∧
    unlockWallet ⟨2, some 100⟩ 100 true = ⟨⟨0, none⟩, .success, true⟩ ∧
    restoreLockState (some 5) (some 100) 100 = ⟨0, none⟩ :=
  ⟨(unlock_lockout_state_machine 40).1,
    (unlock_lockout_state_machine 40).2.1 ⟨5, some 100⟩ 100 true rfl (by decide),
    (unlock_lockout_state_machine 100).2.2.1 ⟨2, some 100⟩
      (fun t ht => by injection ht with h; omega),
    (unlock_lockout_state_machine 100).2.2.2 5 100 (by decide)⟩

/-- Counterexample for claim C5 as stated: in a live session whose lockout
has already expired (lockout until time 1000, current time 2000), the
attempt counter still holds 5, so one further failed unlock raises it to 6
and immediately re installs a lockout.  Under the claim, the counter would
have been reset to zero at expiry, making this the first failed attempt,
with outcome invalidPassword and 4 attempts remaining and no new lockout. -/
theorem lockout_expiry_does_not_reset_attempts :
    unlockWallet ⟨5, some 1000⟩ 2000 false =
      ⟨⟨6, some (2000 + LOCKOUT_DURATION)⟩, .lockedOutNow, true⟩ := rfl

/-- Claim C4 (amended): routing in onMessage is id based with one
exception.  A message without an id never touches the pending map: the
state is unchanged and the only possible effect is the dispatch of the
params to the at most one handler the subscriptions map holds for the
method.  A message whose id matches a pending request resolves or rejects
exactly that request, removing exactly it from the pending map.  Issuing
calls with ids 1, 2, 3 and delivering the responses in the order 3, 2, 1
resolves each call with its own result.  The claim that a message with an
id is always treated as a response is amended: a message with an id that
matches no pending request falls through to the notification dispatch
(see the counterexample). -/
theorem onMessage_routing (s : RpcState) (msg : RpcMessage) :
    (msg.msgId = none →
      (onMessage s msg).1 = s ∧
      ∀ m h ps, (onMessage s msg).2 = .notified m h ps →
        subsGet s.subscriptions m = some h ∧ msg.method = some m ∧ msg.params = some ps) ∧
    (∀ i, msg.msgId = some i → i ∈ s.pending →
      (onMessage s msg).1.pending = s.pending.erase i ∧
      (onMessage s msg).2 =
        (if msg.hasError then .rejectedPending i else .resolvedPending i msg.result)) ∧
    (deliverResponse threeCallsState 3 30 = (⟨3, [1, 2], []⟩, .resolvedPending 3 30) ∧
     deliverResponse ⟨3, [1, 2], []⟩ 2 20 = (⟨3, [1], []⟩, .resolvedPending 2 20) ∧
     deliverResponse ⟨3, [1], []⟩ 1 10 = (⟨3, [], []⟩, .resolvedPending 1 10)) := by
  refine ⟨fun hid => ?_, fun i hid hp => ?_, by decide⟩
  · constructor
    · simp only [onMessage, hid]
      match hm : msg.method, hp : msg.params with
      | some m, some ps =>
        simp only [notifyDispatch, hm, hp]
        split
        · rfl
        · match hs : subsGet s.subscriptions m with
          | some h => simp [hs]
          | none => simp [hs]
      | some m, none => simp [notifyDispatch, hm, hp]
      | none, some ps => simp [notifyDispatch, hm, hp]
      | none, none => simp [notifyDispatch, hm, hp]
    · intro m h ps hev
      simp only [onMessage, hid, notifyDispatch] at hev
      match hm : msg.method, hpp : msg.params with
      | some m', some ps' =>
        rw [hm, hpp] at hev
        by_cases hne : m' = ""
        · simp [hne] at hev
        · simp only [if_neg hne] at hev
          match hs : subsGet s.subscriptions m' with
          | some h' =>
            rw [hs] at hev
            simp only [RpcEvent.notified.injEq] at hev
            obtain ⟨hm1, hh1, hps1⟩ := hev
            subst hm1; subst hh1; subst hps1
            exact ⟨hs, rfl, rfl⟩
          | none => rw [hs] at hev; simp at hev
      | some m', none => rw [hm, hpp] at hev; simp at hev
      | none, some ps' => rw [hm, hpp] at hev; simp at hev
      | none, none => rw [hm, hpp] at hev; simp at hev
  · simp [onMessage, hid, hp]

/-- Witness for the amended claim C4: a concrete notification and a
concrete matched response. -/
theorem onMessage_routing_witness :
    ((onMessage ⟨3, [7], [( "blockchain.headers.subscribe", 5)]⟩
        ⟨none, false, 0, some "blockchain.headers.subscribe", some [9]⟩).1 =
      ⟨3, [7], [( "blockchain.headers.subscribe", 5)]⟩) ∧
    ((onMessage ⟨3, [7], []⟩ ⟨some 7, false, 42, none, none⟩).1.pending = [] ∧
      (onMessage ⟨3, [7], []⟩ ⟨some 7, false, 42, none, none⟩).2 = .resolvedPending 7 42) := by
  refine ⟨((onMessage_routing _ _).1 rfl).1, ?_⟩
  have h := (onMessage_routing ⟨3, [7], []⟩ ⟨some 7, false, 42, none, none⟩).2.1 7 rfl (by decide)
  simpa using h

/-- Counterexample for claim C4 as stated: a message carrying an id (99)
that matches no pending request, together with truthy method and params
fields, is dispatched to the registered subscription handler, that is,
treated as a notification rather than as a response. -/
theorem unknown_id_message_treated_as_notification :
    onMessage ⟨0, [], [( "blockchain.scripthash.subscribe", 7)]⟩
        ⟨some 99, false, 0, some "blockchain.scripthash.subscribe", some [5]⟩ =
      (⟨0, [], [( "blockchain.scripthash.subscribe", 7)]⟩,
        .notified "blockchain.scripthash.subscribe" 7 [5]) := by decide

/-- Hex digits decode back to their value. -/
theorem hexDigitVal_hexDigitChar : ∀ n < 16, hexDigitVal (hexDigitChar n) = some n := by decide

/-- Hex decoding inverts hex encoding on byte lists. -/
theorem hexPairsToBytes_roundtrip : ∀ l : List Nat, (∀ b ∈ l, b < 256) →
    hexPairsToBytes (l.map byteToHexChars).flatten = l
  | [], _ => rfl
  | b :: rest, h => by
    have hb : b < 256 := h b (by simp)
    have ih := hexPairsToBytes_roundtrip rest (fun x hx => h x (by simp [hx]))
    simp only [List.map_cons, List.flatten_cons, byteToHexChars, List.cons_append,
      List.nil_append, hexPairsToBytes]
    rw [hexDigitVal_hexDigitChar _ (by omega), hexDigitVal_hexDigitChar _ (by omega)]
    simp only [ih]
    congr 1
    omega

/-- Hex rendering doubles the length. -/
theorem bytesToHex_length (l : List Nat) : (bytesToHex l).length = 2 * l.length := by
  show (l.map byteToHexChars).flatten.length = 2 * l.length
  induction l with
  | nil => rfl
  | cons b rest ih =>
    simp only [List.map_cons, List.flatten_cons, List.length_append, ih, byteToHexChars]
    simp
    omega

/-- Round trip of the two Buffer conversions on byte lists. -/
theorem hexToBytes_bytesToHex (l : List Nat) (h : ∀ b ∈ l, b < 256) :
    hexToBytes (bytesToHex l) = l :=
  hexPairsToBytes_roundtrip l h

/-- When the exception free walk completes, the partial walk returns the
same hashes: the two only differ on the varint overflow paths. -/
theorem walkTxsPartial_eq_of_ok (blockHex : String) (buffer : List Nat) :
    ∀ (count offset : Nat) (acc l : List String),
      walkTxs blockHex buffer count offset acc = .ok l →
      walkTxsPartial blockHex buffer count offset acc = l
  | 0, offset, acc, l, h => by
    simp only [walkTxs, Except.ok.injEq] at h
    simpa [walkTxsPartial] using h
  | count + 1, offset, acc, l, h => by
    simp only [walkTxs] at h
    simp only [walkTxsPartial]
    by_cases ho : offset < buffer.length
    · rw [if_pos ho] at h
      rw [if_pos ho]
      match hs : stepTx blockHex buffer offset with
      | .error e => rw [hs] at h; exact absurd h (by simp)
      | .ok none => rw [hs] at h; simp only [Except.ok.injEq] at h; simpa using h
      | .ok (some (o2, txid)) =>
        rw [hs] at h
        exact walkTxsPartial_eq_of_ok blockHex buffer count o2 (acc ++ [txid]) l h
    · rw [if_neg ho] at h
      rw [if_neg ho]
      simp only [Except.ok.injEq] at h
      exact h

/-- Claim C2 (amended): parseTransactionHashesFromBlock never throws (its
embedding is a total function, the try catch of the source absorbing every
thrown varint overflow), and on every block hex string it returns either
exactly the transaction hashes successfully parsed before the truncation
point, or the empty list.  The empty list case occurs exactly when a
varint length field runs past the buffer, in which case the hashes parsed
before the truncation point are discarded, so the claim as stated fails
(see the counterexample). -/
theorem parseTxHashes_graceful (blockHex : String) :
    parseTransactionHashesFromBlock blockHex = specHashesParsedBeforeTruncation blockHex ∨
    parseTransactionHashesFromBlock blockHex = [] := by
  by_cases h0 : blockHex.length ≤ 160
  · left
    simp [parseTransactionHashesFromBlock, specHashesParsedBeforeTruncation, h0]
  · match hv : readVarint (hexToBytes blockHex) 80 with
    | .error e =>
      left
      simp [parseTransactionHashesFromBlock, specHashesParsedBeforeTruncation, h0, hv]
    | .ok (txCount, size) =>
      match hw : walkTxs blockHex (hexToBytes blockHex) txCount (80 + size) [] with
      | .error e =>
        right
        simp [parseTransactionHashesFromBlock, h0, hv, hw]
      | .ok l =>
        left
        have hp := walkTxsPartial_eq_of_ok blockHex (hexToBytes blockHex) txCount (80 + size) [] l hw
        simp [parseTransactionHashesFromBlock, specHashesParsedBeforeTruncation, h0, hv, hw, hp]

set_option maxRecDepth 10000 in
/-- Counterexample for claim C2 as stated: on a block whose first
transaction is complete and whose second transaction is truncated inside a
varint length field, the function returns the empty list, not the one hash
successfully parsed before the truncation point. -/
theorem parseTxHashes_discards_parsed_hashes :
    parseTransactionHashesFromBlock truncatedBlockHex = [] ∧
    (specHashesParsedBeforeTruncation truncatedBlockHex).length = 1 ∧
    parseTransactionHashesFromBlock truncatedBlockHex ≠
      specHashesParsedBeforeTruncation truncatedBlockHex := by
  refine ⟨rfl, rfl, fun h => ?_⟩
  have h1 : (parseTransactionHashesFromBlock truncatedBlockHex).length = 0 := rfl
  have h2 : (specHashesParsedBeforeTruncation truncatedBlockHex).length = 1 := rfl
  rw [h] at h1
  omega

/-- Claim C6 (amended): parseBlockHeader succeeds on the hex encoding of
every 80 byte header, decoding the four little endian integer fields at
their documented offsets, byte reversing the two 32 byte hash fields, and
computing the hash as the byte reversed double SHA-256 of the header
bytes; re parsing the same hex yields the same hash; and it fails exactly
when fewer than 160 hex characters are supplied or the decoded bytes do
not number exactly 80.  The claim that every string of at least 160 hex
characters succeeds is amended: longer strings decode to more than 80
bytes and are rejected with the invalid length error (see the
counterexample). -/
theorem parseBlockHeader_spec :
    (∀ b : List Nat, b.length = 80 → (∀ x ∈ b, x < 256) →
      parseBlockHeader (bytesToHex b) = .ok ⟨bytesToHex ((sha256 (sha256 b)).reverse),
        readUInt32LE b 0, bytesToHex (((b.drop 4).take 32).reverse),
        bytesToHex (((b.drop 36).take 32).reverse),
        readUInt32LE b 68, readUInt32LE b 72, readUInt32LE b 76⟩) ∧
    (∀ s h1 h2, parseBlockHeader s = .ok h1 → parseBlockHeader s = .ok h2 → h1.hash = h2.hash) ∧
    (∀ s, (∃ e, parseBlockHeader s = .error e) ↔
      (s.length < 160 ∨ (hexToBytes s).length ≠ 80)) := by
  refine ⟨fun b hlen hbound => ?_, fun s h1 h2 e1 e2 => ?_, fun s => ?_⟩
  · have h160 : (bytesToHex b).length = 160 := by rw [bytesToHex_length, hlen]
    have hrt : hexToBytes (bytesToHex b) = b := hexToBytes_bytesToHex b hbound
    simp only [parseBlockHeader, h160, hrt, hlen]
    norm_num
  · rw [e1] at e2
    simp only [Except.ok.injEq] at e2
    rw [e2]
  · by_cases hl : s.length < 160
    · simp [parseBlockHeader, hl]
    · by_cases hb : (hexToBytes s).length = 80
      · simp [parseBlockHeader, hl, hb]
      · simp [parseBlockHeader, hl, hb]

set_option maxRecDepth 4000 in
/-- Counterexample for claim C6 as stated: a string of 162 hex characters
(at least 160, so the claim demands success) decodes to 81 bytes and is
rejected with the invalid length error. -/
theorem parseBlockHeader_rejects_162_hex_chars :
    parseBlockHeader (String.mk (List.replicate 162 '0')) = .error (.invalidLength 81) := by rfl

/-- Witness for the amended claim C6 at a concrete 80 byte header. -/
theorem parseBlockHeader_spec_witness :
    parseBlockHeader (bytesToHex (List.replicate 80 0)) =
      .ok ⟨bytesToHex ((sha256 (sha256 (List.replicate 80 0))).reverse),
        readUInt32LE (List.replicate 80 0) 0,
        bytesToHex ((((List.replicate 80 0).drop 4).take 32).reverse),
        bytesToHex ((((List.replicate 80 0).drop 36).take 32).reverse),
        readUInt32LE (List.replicate 80 0) 68, readUInt32LE (List.replicate 80 0) 72,
        readUInt32LE (List.replicate 80 0) 76⟩ :=
  parseBlockHeader_spec.1 (List.replicate 80 0) (by decide) (by decide)

/-- Byte exclusive or stays below 256. -/
theorem byteXor_lt (a b : Nat) : byteXor a b < 256 := Nat.mod_lt _ (by omega)

/-- Byte exclusive or with the same mask twice is the identity on bytes. -/
theorem byteXor_cancel (a k : Nat) (ha : a < 256) (hk : k < 256) :
    byteXor (byteXor a k) k = a := by
  unfold byteXor
  have h1 : a ^^^ k < 256 := Nat.xor_lt_two_pow (n := 8) ha hk
  rw [Nat.mod_eq_of_lt h1, Nat.xor_assoc, Nat.xor_self, Nat.xor_zero, Nat.mod_eq_of_lt ha]

/-- Pointwise byte exclusive or produces bytes. -/
theorem zipWith_byteXor_lt : ∀ l1 l2 : List Nat, ∀ x ∈ List.zipWith byteXor l1 l2, x < 256
  | [], _, x, hx => by simp at hx
  | _ :: _, [], x, hx => by simp at hx
  | a :: l1, b :: l2, x, hx => by
    simp only [List.zipWith_cons_cons, List.mem_cons] at hx
    rcases hx with h | h
    · rw [h]; exact byteXor_lt a b
    · exact zipWith_byteXor_lt l1 l2 x h

/-- Pointwise byte exclusive or with the same keystream twice recovers the
plaintext. -/
theorem zipWith_byteXor_cancel : ∀ l1 l2 : List Nat, (∀ x ∈ l1, x < 256) → (∀ x ∈ l2, x < 256) →
    List.zipWith byteXor (List.zipWith byteXor l1 l2) l2 = l1.take l2.length
  | [], l2, _, _ => by simp
  | _ :: _, [], _, _ => by simp
  | a :: l1, b :: l2, h1, h2 => by
    simp only [List.zipWith_cons_cons, List.take_succ_cons]
    rw [byteXor_cancel a b (h1 a (by simp)) (h2 b (by simp))]
    rw [zipWith_byteXor_cancel l1 l2 (fun x hx => h1 x (by simp [hx]))
      (fun x hx => h2 x (by simp [hx]))]
    simp

/-- AES block encryption returns 16 bytes. -/
theorem aesEncryptBlock_length (key block : List Nat) : (aesEncryptBlock key block).length = 16 := by
  simp [aesEncryptBlock, addRoundKey]

/-- AES block encryption returns bytes. -/
theorem aesEncryptBlock_lt (key block : List Nat) : ∀ x ∈ aesEncryptBlock key block, x < 256 := by
  intro x hx
  simp only [aesEncryptBlock, addRoundKey, List.mem_map] at hx
  obtain ⟨i, _, hi⟩ := hx
  rw [← hi]
  exact byteXor_lt _ _

/-- Fixed width big endian rendering has the requested length. -/
theorem natToBytesBE_length (n len : Nat) : (natToBytesBE n len).length = len := by
  simp [natToBytesBE]

/-- Fixed width big endian rendering produces bytes. -/
theorem natToBytesBE_lt (n len : Nat) : ∀ x ∈ natToBytesBE n len, x < 256 := by
  intro x hx
  simp only [natToBytesBE, List.mem_map] at hx
  obtain ⟨i, _, hi⟩ := hx
  rw [← hi]
  exact Nat.mod_lt _ (by omega)

/-- The CTR keystream has exactly the requested length. -/
theorem ctrKeystream_length (key iv : List Nat) (n : Nat) : (ctrKeystream key iv n).length = n := by
  have hf : (((List.range ((n + 15) / 16)).map
      (fun i => aesEncryptBlock key (iv ++ natToBytesBE (i + 2) 4))).flatten).length
      = 16 * ((n + 15) / 16) := by
    rw [List.length_flatten, List.map_map]
    have h : (List.map (List.length ∘ fun i => aesEncryptBlock key (iv ++ natToBytesBE (i + 2) 4))
        (List.range ((n + 15) / 16)))
        = List.map (Function.const Nat 16) (List.range ((n + 15) / 16)) := by
      apply List.map_congr_left
      intro i _
      simp [Function.comp, aesEncryptBlock_length, Function.const]
    rw [h, List.map_const, List.sum_replicate]
    simp [Nat.mul_comm]
  simp only [ctrKeystream, List.length_take, hf]
  omega

/-- The CTR keystream consists of bytes. -/
theorem ctrKeystream_lt (key iv : List Nat) (n : Nat) : ∀ x ∈ ctrKeystream key iv n, x < 256 := by
  intro x hx
  have hx2 := List.mem_of_mem_take hx
  rw [List.mem_flatten] at hx2
  obtain ⟨blk, hblk, hxblk⟩ := hx2
  rw [List.mem_map] at hblk
  obtain ⟨i, _, hi⟩ := hblk
  rw [← hi] at hxblk
  exact aesEncryptBlock_lt _ _ x hxblk

/-- The GCM tag is 16 bytes long. -/
theorem gcmTagOf_length (key iv ct : List Nat) : (gcmTagOf key iv ct).length = 16 := by
  simp [gcmTagOf, List.length_zipWith, aesEncryptBlock_length, natToBytesBE_length]

/-- The GCM tag consists of bytes. -/
theorem gcmTagOf_lt (key iv ct : List Nat) : ∀ x ∈ gcmTagOf key iv ct, x < 256 :=
  zipWith_byteXor_lt _ _

/-- GCM decryption inverts GCM encryption under the same key and IV: the
recomputed tag agrees, and the keystream cancels. -/
theorem gcm_roundtrip (key iv pt : List Nat) (hpt : ∀ x ∈ pt, x < 256) :
    gcmDecrypt key iv (gcmEncrypt key iv pt) = some pt := by
  simp only [gcmEncrypt, gcmDecrypt]
  set ks := ctrKeystream key iv pt.length with hks
  set ct := List.zipWith byteXor pt ks with hct
  set tag := gcmTagOf key iv ct with htag
  have hctlen : ct.length = pt.length := by
    rw [hct, List.length_zipWith, hks, ctrKeystream_length]
    omega
  have htaglen : tag.length = 16 := by rw [htag]; exact gcmTagOf_length key iv ct
  have hlen : (ct ++ tag).length = pt.length + 16 := by
    rw [List.length_append, hctlen, htaglen]
  rw [hlen, if_neg (by omega)]
  have hsub : pt.length + 16 - 16 = ct.length := by omega
  rw [hsub, List.take_left, List.drop_left, if_pos htag.symm, hctlen, ← hks]
  rw [zipWith_byteXor_cancel pt ks hpt (by rw [hks]; exact ctrKeystream_lt key iv pt.length)]
  rw [hks, ctrKeystream_length]
  simp

/-- The output of GCM encryption consists of bytes. -/
theorem gcmEncrypt_lt (key iv pt : List Nat) : ∀ x ∈ gcmEncrypt key iv pt, x < 256 := by
  intro x hx
  simp only [gcmEncrypt, List.mem_append] at hx
  rcases hx with h | h
  · exact zipWith_byteXor_lt _ _ x h
  · exact gcmTagOf_lt _ _ _ x h

/-- Base64 digits decode back to their value. -/
theorem b64Val_b64Char : ∀ n < 64, b64Val (b64Char n) = some n := by decide

/-- No base64 digit is the padding character. -/
theorem b64Char_ne_eq : ∀ n < 64, b64Char n ≠ '=' := by decide

/-- Base64 decoding inverts base64 encoding on byte lists. -/
theorem atobChars_btoaChars : ∀ l : List Nat, (∀ b ∈ l, b < 256) →
    atobChars (btoaChars l) = l
  | [], _ => rfl
  | [a], h => by
    have ha : a < 256 := h a (by simp)
    have e1 : b64Val (b64Char (a / 4)) = some (a / 4) := b64Val_b64Char _ (by omega)
    have e2 : b64Val (b64Char ((a % 4) * 16)) = some ((a % 4) * 16) := b64Val_b64Char _ (by omega)
    simp only [btoaChars, atobChars, e1, e2, if_pos rfl, if_true]
    congr 1
    omega
  | [a, b], h => by
    have ha : a < 256 := h a (by simp)
    have hb : b < 256 := h b (by simp)
    have e1 : b64Val (b64Char (a / 4)) = some (a / 4) := b64Val_b64Char _ (by omega)
    have e2 : b64Val (b64Char ((a % 4) * 16 + b / 16)) = some ((a % 4) * 16 + b / 16) :=
      b64Val_b64Char _ (by omega)
    have e3 : b64Val (b64Char ((b % 16) * 4)) = some ((b % 16) * 4) := b64Val_b64Char _ (by omega)
    have hne3 : (b64Char ((b % 16) * 4) = '=') = False := eq_false (b64Char_ne_eq _ (by omega))
    simp only [btoaChars, atobChars, e1, e2, e3, hne3, if_false, if_pos rfl, if_true]
    congr 1
    · omega
    · congr 1
      omega
  | a :: b :: c :: rest, h => by
    have ha : a < 256 := h a (by simp)
    have hb : b < 256 := h b (by simp)
    have hc : c < 256 := h c (by simp)
    have ih := atobChars_btoaChars rest (fun x hx => h x (by simp [hx]))
    have e1 : b64Val (b64Char (a / 4)) = some (a / 4) := b64Val_b64Char _ (by omega)
    have e2 : b64Val (b64Char ((a % 4) * 16 + b / 16)) = some ((a % 4) * 16 + b / 16) :=
      b64Val_b64Char _ (by omega)
    have e3 : b64Val (b64Char ((b % 16) * 4 + c / 64)) = some ((b % 16) * 4 + c / 64) :=
      b64Val_b64Char _ (by omega)
    have e4 : b64Val (b64Char (c % 64)) = some (c % 64) := b64Val_b64Char _ (by omega)
    have hne3 : (b64Char ((b % 16) * 4 + c / 64) = '=') = False :=
      eq_false (b64Char_ne_eq _ (by omega))
    have hne4 : (b64Char (c % 64) = '=') = False := eq_false (b64Char_ne_eq _ (by omega))
    simp only [btoaChars, atobChars, e1, e2, e3, e4, hne3, hne4, if_false, ih]
    congr 1
    · omega
    · congr 1
      · omega
      · congr 1
        omega

/-- Round trip of the two base64 conversions on byte lists. -/
theorem atob_btoa (l : List Nat) (h : ∀ b ∈ l, b < 256) : atob (btoa l) = l :=
  atobChars_btoaChars l h

/-- Every character holds a code point below the Unicode bound. -/
theorem char_toNat_lt (c : Char) : c.toNat < 1114112 := by
  rcases c.valid with h | ⟨_, h⟩
  · exact Nat.lt_trans h (by norm_num)
  · exact h

/-- UTF-8 encoding of one valid code point produces bytes. -/
theorem utf8EncodeChar_lt (c : Nat) (hc : c < 1114112) : ∀ b ∈ utf8EncodeChar c, b < 256 := by
  intro b hb
  simp only [utf8EncodeChar] at hb
  split at hb
  · simp at hb; omega
  · split at hb
    · simp at hb; rcases hb with h | h <;> omega
    · split at hb
      · simp at hb; rcases hb with h | h | h <;> omega
      · simp at hb; rcases hb with h | h | h | h <;> omega

/-- UTF-8 encoding of valid code points produces bytes. -/
theorem utf8Encode_lt (cps : List Nat) (hc : ∀ c ∈ cps, c < 1114112) :
    ∀ b ∈ utf8Encode cps, b < 256 := by
  intro b hb
  simp only [utf8Encode, List.mem_flatten] at hb
  obtain ⟨l, hl, hbl⟩ := hb
  rw [List.mem_map] at hl
  obtain ⟨c, hcmem, hcl⟩ := hl
  rw [← hcl] at hbl
  exact utf8EncodeChar_lt c (hc c hcmem) b hbl

/-- TextEncoder output consists of bytes. -/
theorem utf8EncodeStr_lt (s : String) : ∀ b ∈ utf8EncodeStr s, b < 256 := by
  apply utf8Encode_lt
  intro c hc
  rw [List.mem_map] at hc
  obtain ⟨ch, _, hch⟩ := hc
  rw [← hch]
  exact char_toNat_lt ch

set_option maxRecDepth 4000 in
/-- With enough fuel, UTF-8 decoding inverts UTF-8 encoding on valid code
points. -/
theorem utf8DecodeGo_encode : ∀ (cps : List Nat) (fuel : Nat),
    (∀ c ∈ cps, c < 1114112) → (utf8Encode cps).length ≤ fuel →
    utf8DecodeGo fuel (utf8Encode cps) = cps
  | [], fuel, _, _ => by
    cases fuel <;> simp [utf8Encode, utf8DecodeGo]
  | c :: rest, fuel, hv, hf => by
    have hc : c < 1114112 := hv c (by simp)
    have henc : utf8Encode (c :: rest) = utf8EncodeChar c ++ utf8Encode rest := by
      simp [utf8Encode]
    have hlen1 : 1 ≤ (utf8EncodeChar c).length := by
      simp only [utf8EncodeChar]
      split
      · simp
      · split
        · simp
        · split <;> simp
    match fuel with
    | 0 =>
      exfalso
      rw [henc, List.length_append] at hf
      omega
    | fuel + 1 =>
      have hrest : (utf8Encode rest).length ≤ fuel := by
        rw [henc, List.length_append] at hf
        omega
      have ih := utf8DecodeGo_encode rest fuel (fun x hx => hv x (by simp [hx])) hrest
      rw [henc]
      simp only [utf8EncodeChar]
      by_cases h1 : c < 0x80
      · rw [if_pos h1]
        simp only [List.append_eq, List.cons_append, List.nil_append, utf8DecodeGo]
        rw [if_pos h1, ih]
      · rw [if_neg h1]
        by_cases h2 : c < 0x800
        · rw [if_pos h2]
          simp only [List.append_eq, List.cons_append, List.nil_append, utf8DecodeGo]
          rw [if_neg (by omega), if_pos (by omega)]
          rw [ih]
          congr 1
          omega
        · rw [if_neg h2]
          by_cases h3 : c < 0x10000
          · rw [if_pos h3]
            simp only [List.append_eq, List.cons_append, List.nil_append, utf8DecodeGo]
            rw [if_neg (by omega), if_neg (by omega), if_pos (by omega)]
            rw [ih]
            congr 1
            omega
          · rw [if_neg h3]
            simp only [List.append_eq, List.cons_append, List.nil_append, utf8DecodeGo]
            rw [if_neg (by omega), if_neg (by omega), if_neg (by omega)]
            rw [ih]
            congr 1
            omega

/-- UTF-8 decoding inverts UTF-8 encoding on valid code points. -/
theorem utf8Decode_encode (cps : List Nat) (hv : ∀ c ∈ cps, c < 1114112) :
    utf8Decode (utf8Encode cps) = cps :=
  utf8DecodeGo_encode cps (utf8Encode cps).length hv (le_refl _)

/-- The text codecs round trip every string. -/
theorem utf8DecodeStr_encodeStr (s : String) : utf8DecodeStr (utf8EncodeStr s) = s := by
  have hv : ∀ c ∈ s.data.map Char.toNat, c < 1114112 := by
    intro c hc
    rw [List.mem_map] at hc
    obtain ⟨ch, _, hch⟩ := hc
    rw [← hch]
    exact char_toNat_lt ch
  simp only [utf8DecodeStr, utf8EncodeStr, utf8Decode_encode _ hv, List.map_map]
  have h : (Char.ofNat ∘ Char.toNat) = id := by
    funext ch
    exact Char.ofNat_toNat ch
  rw [h, List.map_id]

/-- Claim C9: for every plaintext string and every password,
decryptWithPassword applied with the same password to the EncryptedSecret
produced by encryptWithPassword returns exactly the original plaintext
string, for every salt and IV of the shapes drawn by getRandomValues (16
and 12 random bytes).  Strings here are sequences of Unicode scalar
values, which covers the ASCII mnemonic phrases, WIF keys and hex keys the
specification names. -/
theorem encrypt_decrypt_roundtrip (data password : String) (salt iv : List Nat)
    (hsl : salt.length = 16) (hivl : iv.length = 12)
    (hsalt : ∀ b ∈ salt, b < 256) (hiv : ∀ b ∈ iv, b < 256) :
    decryptWithPassword (encryptWithPassword data password salt iv) password = .ok data := by
  simp only [encryptWithPassword, decryptWithPassword]
  rw [atob_btoa salt hsalt, atob_btoa iv hiv,
    atob_btoa _ (fun x hx => gcmEncrypt_lt _ _ _ x (List.mem_of_mem_take hx)),
    atob_btoa _ (fun x hx => gcmEncrypt_lt _ _ _ x (List.mem_of_mem_drop hx)),
    List.take_append_drop,
    gcm_roundtrip _ _ _ (utf8EncodeStr_lt data)]
  simp only [utf8DecodeStr_encodeStr]

/-- Witness for claim C9 at a concrete mnemonic phrase, password, salt and
IV. -/
theorem encrypt_decrypt_roundtrip_witness :
    decryptWithPassword
      (encryptWithPassword sampleSecret samplePassword
        (List.replicate 16 7) (List.replicate 12 9))
      samplePassword = .ok sampleSecret :=
  encrypt_decrypt_roundtrip sampleSecret samplePassword
    (List.replicate 16 7) (List.replicate 12 9)
    (by decide) (by decide) (by decide) (by decide)
